import Mathlib

/-!
Verification development for the ghostselfbot client library.

The definitions below are shallow embeddings of the JavaScript source:
`CacheManager` (bounded TTL caches), `RESTManager` (rate-limit aware
request execution with retries), `ThrottlingManager` (predictive
admission control) and the gateway `Client` (heartbeat state machine).
JavaScript `Map` objects are modelled as insertion-ordered association
lists, times as integers in milliseconds, and asynchronous waiting as
explicit time arithmetic on an event timeline.

The file is organised as definitions first, then theorems.
-/

set_option maxHeartbeats 1000000
set_option linter.unnecessarySeqFocus false

namespace Ghost

/-- A JavaScript `Map` with string keys, modelled as an insertion-ordered
association list.  `set` on a present key replaces the value in place,
`set` on a fresh key appends at the end, exactly as JS `Map` iteration
order behaves. -/
abbrev JSMap (α : Type) : Type := List (String × α)

namespace JSMap

/-- JS `map.get(k)`: the value bound to `k`, if any. -/
def mget {α : Type} : JSMap α → String → Option α
  | [], _ => none
  | (k', v) :: rest, k => if k' = k then some v else mget rest k

/-- JS `map.has(k)`. -/
def hasKey {α : Type} : JSMap α → String → Bool
  | [], _ => false
  | (k', _) :: rest, k => k' = k || hasKey rest k

/-- JS `map.set(k, v)`: replace in place when present, append when fresh. -/
def mset {α : Type} : JSMap α → String → α → JSMap α
  | [], k, v => [(k, v)]
  | (k', v') :: rest, k, v =>
      if k' = k then (k, v) :: rest else (k', v') :: mset rest k v

/-- JS `map.delete(k)`: remove the binding of `k` (the first one, which is
the only one when keys are unique). -/
def mdel {α : Type} : JSMap α → String → JSMap α
  | [], _ => []
  | (k', v') :: rest, k => if k' = k then rest else (k', v') :: mdel rest k

/-- The keys of the map in iteration order. -/
def keys {α : Type} : JSMap α → List String
  | [] => []
  | (k, _) :: rest => k :: keys rest

end JSMap

open JSMap

/-! CacheManager (src/unnamed/part_003, class `CacheManager`).  All five
stores (messages, users, channels, guilds, members) share the same code
shape; we embed the message store, parametrised by its `maxSize` and
`lifetime` options.  Values are opaque `Nat` payloads. -/

/-- The per-store slice of the `CacheManager` constructor options
(`messageCacheMaxSize` / `messageCacheLifetime`). -/
structure CacheOptions where
  maxSize : Nat
  lifetime : Nat
deriving DecidableEq, Repr

/-- The message store: the `messages` map and the `_messageExpires` map. -/
structure CacheStore where
  msgs : JSMap Nat
  expires : JSMap Nat
deriving DecidableEq, Repr

/-- The loop body of `_getOldestEntry`: keep the entry with the strictly
smaller expiration time; ties keep the earlier entry (`expireTime <
oldestTime`). `none` plays the role of the initial `oldestTime =
Infinity`. -/
def minStep (best : Option (String × Nat)) (e : String × Nat) :
    Option (String × Nat) :=
  match best with
  | none => some e
  | some b => if e.2 < b.2 then some e else some b

/-- The `for (const [id, expireTime] of expirations.entries())` loop of
`_getOldestEntry`. -/
def minExpEntry (exp : JSMap Nat) : Option (String × Nat) :=
  exp.foldl minStep none

/-- `CacheManager._getOldestEntry`.  Returns `none` when the collection is
empty.  A `null` `oldestId` after the loop is encoded as the empty string,
which is exactly the other falsy value the `if (!oldestId)` fallback
accepts, so an empty-string key found by the loop also falls back to the
first key of the collection. -/
def getOldestEntry (coll : JSMap Nat) (exp : JSMap Nat) : Option String :=
  match coll with
  | [] => none
  | (k0, _) :: _ =>
    let oid : String :=
      match minExpEntry exp with
      | some b => b.1
      | none => ""
    some (if oid = "" then k0 else oid)

/-- `CacheManager.removeMessage`: delete from the expiration map and the
store. -/
def removeMessage (st : CacheStore) (id : String) : CacheStore :=
  { msgs := st.msgs.mdel id, expires := st.expires.mdel id }

/-- The eviction stage of `addMessage`: when the store is at (or above)
`maxSize`, evict the oldest entry — guarded by the truthiness test
`if (oldestId)`, which skips the eviction for a `null` or empty-string
id. -/
def evictIfFull (opts : CacheOptions) (st : CacheStore) : CacheStore :=
  if st.msgs.length ≥ opts.maxSize then
    match getOldestEntry st.msgs st.expires with
    | some oldestId => if oldestId ≠ "" then removeMessage st oldestId else st
    | none => st
  else st

/-- `CacheManager.addMessage`: run the eviction stage, then insert,
stamping an expiration of `Date.now() + lifetime` when the lifetime
option is positive. -/
def addMessage (opts : CacheOptions) (st : CacheStore) (id : String)
    (data : Nat) (now : Nat) : CacheStore :=
  let st1 := evictIfFull opts st
  { msgs := st1.msgs.mset id data
    expires :=
      if opts.lifetime > 0 then st1.expires.mset id (now + opts.lifetime)
      else st1.expires }

/-- `CacheManager.getMessage`: a plain map lookup (`get(id) || null`). -/
def getMessage (st : CacheStore) (id : String) : Option Nat :=
  st.msgs.mget id

/-- The loop body of `sweep`: remove the visited entry when its
expiration has strictly passed (`now > expireTime`). -/
def sweepStep (now : Nat) (acc : CacheStore) (e : String × Nat) :
    CacheStore :=
  if now > e.2 then removeMessage acc e.1 else acc

/-- `CacheManager.sweep`, restricted to the message store: when the
lifetime option is positive, walk the expiration entries and remove every
entry whose expiration has strictly passed. -/
def sweep (opts : CacheOptions) (st : CacheStore) (now : Nat) : CacheStore :=
  if opts.lifetime > 0 then st.expires.foldl (sweepStep now) st
  else st

/-- One observable operation on the message store. -/
inductive CacheOp where
  | add (id : String) (data : Nat) (now : Nat)
  | remove (id : String)
  | sweepAt (now : Nat)
deriving DecidableEq, Repr

/-- Run a sequence of store operations. -/
def runOps (opts : CacheOptions) : CacheStore → List CacheOp → CacheStore
  | st, [] => st
  | st, .add id data now :: rest => runOps opts (addMessage opts st id data now) rest
  | st, .remove id :: rest => runOps opts (removeMessage st id) rest
  | st, .sweepAt now :: rest => runOps opts (sweep opts st now) rest

/-- The empty store. -/
def emptyStore : CacheStore := ⟨[], []⟩

/-- Well-formedness of a store: unique keys in both maps, every expiration
key is a live store key, no expirations when the lifetime option is zero,
and no entry uses the empty string (a falsy value in JS) as its id. -/
def WFStore (opts : CacheOptions) (st : CacheStore) : Prop :=
  (keys st.msgs).Nodup ∧ (keys st.expires).Nodup ∧
  (∀ k ∈ keys st.expires, k ∈ keys st.msgs) ∧
  (opts.lifetime = 0 → st.expires = []) ∧
  (∀ k ∈ keys st.msgs, k ≠ "")

/-- The eviction-policy statement: when any expirations are recorded, the
eviction candidate of `_getOldestEntry` carries the minimum recorded
expiration time; with no expirations it is the first (earliest-inserted)
key; and the concrete maxSize=2 no-TTL scenario inserts "a","b","c" and
keeps exactly {"b","c"}. -/
def EvictionPolicyProp (opts : CacheOptions) (st : CacheStore) : Prop :=
  (st.expires ≠ [] →
    ∃ r : String × Nat, getOldestEntry st.msgs st.expires = some r.1 ∧
      r ∈ st.expires ∧ ∀ p ∈ st.expires, r.2 ≤ p.2) ∧
  (st.expires = [] →
    getOldestEntry st.msgs st.expires = (keys st.msgs).head?) ∧
  (runOps ⟨2, 0⟩ emptyStore
      [.add "a" 1 0, .add "b" 2 0, .add "c" 3 0]).msgs
    = [("b", 2), ("c", 3)]

/-- All add operations in a sequence use a non-empty (truthy) id. -/
def goodIds : List CacheOp → Bool
  | [] => true
  | .add id _ _ :: rest => id ≠ "" && goodIds rest
  | _ :: rest => goodIds rest

/-! RESTManager (src/unnamed/part_000).  Times are integers in
milliseconds.  The `_rateLimits` bookkeeping and the pre-send request
interceptor are modelled directly; the `make → _request →
_handleResponse` path is modelled as a run over a script of axios
outcomes, one per attempted send.  Note that `_request` performs its send
with the bare `axios(options)` call and never reads `_rateLimits`, so the
script run takes no rate-limit state: there is no pre-send suspension on
that path. -/

/-- One `_rateLimits` entry: `{ limited, limit, remaining, reset }`. -/
structure RateLimitInfo where
  limited : Bool
  limit : Int
  remaining : Int
  reset : Int
deriving DecidableEq, Repr

/-- `RESTManager._handleRateLimit` as the number of milliseconds the
request interceptor suspends the outgoing call: `reset - now +
restTimeOffset` when the stored bucket is limited and its reset lies in
the future, otherwise zero. -/
def handleRateLimitDelay (info : Option RateLimitInfo) (now offset : Int) :
    Int :=
  match info with
  | none => 0
  | some i =>
    if i.limited then
      if now < i.reset then i.reset - now + offset else 0
    else 0

/-- The rate-limit response headers consumed by `_updateRateLimit`
(`x-ratelimit-limit` / `-remaining` / `-reset` / `-reset-after`); `none`
is an absent header. -/
structure RateHeaders where
  limit : Option Int
  remaining : Option Int
  reset : Option Int
  resetAfter : Option Int
deriving DecidableEq, Repr

/-- `RESTManager._updateRateLimit`: fold the response headers into the
stored bucket; a positive `retryAfter` (the 429 case) forces
`limited = true` with `reset = now + retryAfter`, otherwise `limited`
is recomputed as `remaining === 0 && reset > Date.now()`. -/
def updateRateLimit (old : Option RateLimitInfo) (h : RateHeaders)
    (now : Int) (retryAfter : Int) : RateLimitInfo :=
  let base := old.getD ⟨false, 0, 0, 0⟩
  let info1 :=
    match h.limit with
    | some l => { base with limit := l }
    | none => base
  let info2 :=
    match h.remaining with
    | some r => { info1 with remaining := r }
    | none => info1
  let info3 :=
    match h.resetAfter with
    | some ra => { info2 with reset := now + ra * 1000 }
    | none =>
      match h.reset with
      | some r => { info2 with reset := r * 1000 }
      | none => info2
  if retryAfter > 0 then
    { info3 with limited := true, reset := now + retryAfter }
  else
    { info3 with limited := decide (info3.remaining = 0 ∧ info3.reset > now) }

/-- The outcome of one attempted send in `_request`: an HTTP response
(whatever the status — axios resolutions and `error.response` rejections
both reach `_handleResponse`), a made-but-unanswered request
(`error.request`), or a failure while setting up the request.  `backoff`
is the sampled `Math.floor(Math.random() * 1000) + 1000` wait used if
this outcome leads to a 5xx/no-response retry. -/
inductive AxiosOutcome where
  | resp (status : Nat) (retryAfterHdr : Option Nat) (data : Nat) (backoff : Nat)
  | noResponse (backoff : Nat)
  | setupFailure (e : Nat)
deriving DecidableEq, Repr

/-- The rejection values `_request` / `_handleResponse` can produce.
`raw e` is the re-thrown original error object of the final
`throw error;` branch. -/
inductive RErr where
  | unauthorized
  | forbidden
  | notFound
  | serverError
  | requestTimeout
  | unknownStatus (status : Nat)
  | raw (e : Nat)
deriving DecidableEq, Repr

/-- Result of running `_request` against a script of outcomes:
the settled value (`none` when the script ran out before the call
settled), the settle time, the send time of every attempt, and how many
429-triggered retries happened. -/
structure RunOut where
  result : Option (Except RErr Nat)
  finish : Int
  sends : List Int
  retried429 : Nat
deriving Repr

/-- `RESTManager._request` / `_handleResponse` over a script of attempt
outcomes.  Faithful points: 2xx resolves with the data; 429 waits
`parseInt(retry-after) * 1000` ms (else the constructor's
`this.retryAfter = 1000`) and calls `_request` again with the SAME
`retryCount`; 401/403/404 throw immediately; 500/502/503/504 retry with
the sampled backoff while `retryCount < retryLimit`, else throw
SERVER_ERROR; other statuses throw UNKNOWN_ERROR; `error.request` retries
like 5xx, else throws REQUEST_TIMEOUT; a setup failure re-throws the raw
error.  No rate-limit state is consulted before sending. -/
def restRun (retryLimit : Nat) (retryAfterDefault : Nat) :
    List AxiosOutcome → Nat → Int → RunOut
  | [], _, now => ⟨none, now, [], 0⟩
  | .resp status rAfter data backoff :: rest, rc, now =>
    if 200 ≤ status ∧ status < 300 then
      ⟨some (.ok data), now, [now], 0⟩
    else if status = 429 then
      let ra : Nat :=
        match rAfter with
        | some s => s * 1000
        | none => retryAfterDefault
      let t := restRun retryLimit retryAfterDefault rest rc (now + ra)
      ⟨t.result, t.finish, now :: t.sends, t.retried429 + 1⟩
    else if status = 401 then ⟨some (.error .unauthorized), now, [now], 0⟩
    else if status = 403 then ⟨some (.error .forbidden), now, [now], 0⟩
    else if status = 404 then ⟨some (.error .notFound), now, [now], 0⟩
    else if status = 500 ∨ status = 502 ∨ status = 503 ∨ status = 504 then
      if rc < retryLimit then
        let t := restRun retryLimit retryAfterDefault rest (rc + 1) (now + backoff)
        ⟨t.result, t.finish, now :: t.sends, t.retried429⟩
      else ⟨some (.error .serverError), now, [now], 0⟩
    else ⟨some (.error (.unknownStatus status)), now, [now], 0⟩
  | .noResponse backoff :: rest, rc, now =>
    if rc < retryLimit then
      let t := restRun retryLimit retryAfterDefault rest (rc + 1) (now + backoff)
      ⟨t.result, t.finish, now :: t.sends, t.retried429⟩
    else ⟨some (.error .requestTimeout), now, [now], 0⟩
  | .setupFailure e :: _, _, now => ⟨some (.error (.raw e)), now, [now], 0⟩

/-- A script entry is a failure during request setup. -/
def isSetupFailure : AxiosOutcome → Bool
  | .setupFailure _ => true
  | _ => false

/-! ThrottlingManager (src/dist/util/ThrottlingManager.js). -/

/-- The digit-run replacement `route.replace(/\d+/g, ':id')`, one char at
a time; the flag records whether we are inside a digit run. -/
def normalizeCharsAux : List Char → Bool → List Char
  | [], _ => []
  | c :: cs, inRun =>
    if c.isDigit then
      (if inRun then [] else [':', 'i', 'd']) ++ normalizeCharsAux cs true
    else c :: normalizeCharsAux cs false

/-- Route normalization used by `throttle`. -/
def normalizeRoute (s : String) : String :=
  String.mk (normalizeCharsAux s.toList false)

/-- The throttling configuration: `_maxRequestsPerMinute` and
`_bufferSize` (a rational safety factor, default 0.9). -/
structure ThrottleConfig where
  maxRequestsPerMinute : Nat
  bufferSize : ℚ
deriving DecidableEq

/-- The mutable admission state of `ThrottlingManager`: the per-route
sliding window `_requestLog` and the per-route server-limit flags
`_rateLimit`. -/
structure ThrottleState where
  requestLog : JSMap (List Int)
  rateLimit : JSMap Bool
deriving DecidableEq

/-- `ThrottlingManager._wouldExceedLimit`: a fresh route gets an empty log
and is admitted; otherwise the log is pruned to the strictly-last-minute
timestamps and the request is denied when
`recent.length >= maxRequestsPerMinute * bufferSize`. -/
def wouldExceedLimit (cfg : ThrottleConfig) (st : ThrottleState)
    (route : String) (now : Int) : Bool × ThrottleState :=
  match st.requestLog.mget route with
  | none => (false, { st with requestLog := st.requestLog.mset route [] })
  | some l =>
    let recent := l.filter (fun time => now - 60000 < time)
    (decide ((cfg.maxRequestsPerMinute : ℚ) * cfg.bufferSize ≤ (recent.length : ℚ)),
     { st with requestLog := st.requestLog.mset route recent })

/-- The `_requestLog` effect of `ThrottlingManager._logRequest`: create
the route's log if missing and push `Date.now()`. -/
def logRequestTimestamp (st : ThrottleState) (route : String) (now : Int) :
    ThrottleState :=
  let l := (st.requestLog.mget route).getD []
  { st with requestLog := st.requestLog.mset route (l ++ [now]) }

/-- The admission decision of `throttle`. -/
inductive ThrottleDecision where
  | execute
  | enqueued
deriving DecidableEq, Repr

/-- `ThrottlingManager.throttle`: normalize the route; enqueue when the
route's `_rateLimit` flag is truthy; otherwise enqueue when
`_wouldExceedLimit` says so; otherwise run `_executeCallback` right away,
whose `_logRequest` records the start time into the sliding window. -/
def throttleAdmit (cfg : ThrottleConfig) (st : ThrottleState)
    (route : String) (now : Int) : ThrottleDecision × ThrottleState :=
  let fr := normalizeRoute route
  if st.rateLimit.mget fr = some true then (.enqueued, st)
  else
    let p := wouldExceedLimit cfg st fr now
    if p.1 then (.enqueued, p.2)
    else (.execute, logRequestTimestamp p.2 fr now)

/-- The admission contract of `throttle`: the operation is enqueued
exactly when the normalized route is flagged rate-limited or the count of
recorded timestamps within the last 60 s has reached
`maxRequestsPerMinute * bufferSize`; and an admitted operation has its
start time appended to the (pruned) sliding window. -/
def AdmissionProp (cfg : ThrottleConfig) (st : ThrottleState)
    (route : String) (now : Int) : Prop :=
  ((throttleAdmit cfg st route now).1 = .enqueued ↔
    st.rateLimit.mget (normalizeRoute route) = some true ∨
      (cfg.maxRequestsPerMinute : ℚ) * cfg.bufferSize ≤
        ((((st.requestLog.mget (normalizeRoute route)).getD []).filter
          (fun time => now - 60000 < time)).length : ℚ)) ∧
  ((throttleAdmit cfg st route now).1 = .execute →
    (throttleAdmit cfg st route now).2.requestLog.mget (normalizeRoute route) =
      some ((((st.requestLog.mget (normalizeRoute route)).getD []).filter
        (fun time => now - 60000 < time)) ++ [now]))

/-- Events touching one route's `_queue` in `ThrottlingManager`.
`submitQueued` is `_enqueue` from `throttle` (an `Array.push`);
`submitImmediate` is an admitted operation running at once;
`drainOne` is `_processQueue` shifting and running the queue head;
`fail429` is `_executeCallback`'s rate-limit branch re-adding the failed
operation through `_enqueue` — again an `Array.push`. -/
inductive QueueEvent where
  | submitQueued (o : Nat)
  | submitImmediate (o : Nat)
  | drainOne
  | fail429 (o : Nat)
deriving DecidableEq, Repr

/-- One route's queue together with the order in which operations
(started) executing. -/
structure QueueState where
  queue : List Nat
  execLog : List Nat
deriving DecidableEq, Repr

/-- Step the queue model by one event. -/
def queueStep (st : QueueState) (e : QueueEvent) : QueueState :=
  match e with
  | .submitQueued o => { st with queue := st.queue ++ [o] }
  | .submitImmediate o => { st with execLog := st.execLog ++ [o] }
  | .drainOne =>
    match st.queue with
    | [] => st
    | h :: t => { queue := t, execLog := st.execLog ++ [h] }
  | .fail429 o => { st with queue := st.queue ++ [o] }

/-- Run the queue model. -/
def runQueue (st : QueueState) (evs : List QueueEvent) : QueueState :=
  evs.foldl queueStep st

/-- Traces made only of enqueues and drains (no admitted-immediately
operations and no 429 re-queues). -/
def onlyQueueDrain (evs : List QueueEvent) : Bool :=
  evs.all fun e =>
    match e with
    | .submitQueued _ => true
    | .drainOne => true
    | _ => false

/-- The operations enqueued by a trace, in submission order. -/
def submittedOps (evs : List QueueEvent) : List Nat :=
  evs.filterMap fun e =>
    match e with
    | .submitQueued o => some o
    | _ => none

/-- The FIFO contract of one route's queue: over enqueue/drain traces,
the executed prefix followed by the still-queued operations is exactly
the submission order (hence drains respect submission order), and in the
429 scenario — operation 1 executes and fails with 429 while operation 2
waits in the queue — the re-queued operation 1 runs AFTER operation 2. -/
def FifoProp (evs : List QueueEvent) : Prop :=
  (runQueue ⟨[], []⟩ evs).execLog ++ (runQueue ⟨[], []⟩ evs).queue
      = submittedOps evs ∧
  (runQueue ⟨[], []⟩ evs).execLog
      = (submittedOps evs).take (runQueue ⟨[], []⟩ evs).execLog.length ∧
  runQueue ⟨[], []⟩ [.submitImmediate 1, .submitQueued 2, .fail429 1,
      .drainOne, .drainOne] = ⟨[], [1, 2, 1]⟩

/-- The `_stats` record of `ThrottlingManager` (the `lastRequest`
timestamp is omitted; no claim mentions it). -/
structure ThrottleStats where
  totalRequests : Nat
  throttledRequests : Nat
  succeededRequests : Nat
  failedRequests : Nat
deriving DecidableEq, Repr

/-- The stats at construction and after `reset()`. -/
def initialStats : ThrottleStats := ⟨0, 0, 0, 0⟩

/-- The four places that mutate `_stats`: `_enqueue`
(`throttledRequests++`), `_logRequest` (`totalRequests++` and
`succeededRequests++`, before the callback is awaited), `_logError`
(`failedRequests++`), and `reset()`. -/
inductive StatsEvent where
  | enqueueReq
  | logRequest
  | logFailure
  | resetStats
deriving DecidableEq, Repr

/-- Apply one stats mutation. -/
def statsStep (s : ThrottleStats) : StatsEvent → ThrottleStats
  | .enqueueReq => { s with throttledRequests := s.throttledRequests + 1 }
  | .logRequest =>
    { s with
      totalRequests := s.totalRequests + 1
      succeededRequests := s.succeededRequests + 1 }
  | .logFailure => { s with failedRequests := s.failedRequests + 1 }
  | .resetStats => initialStats

/-- Fold a history of stats mutations from the initial stats. -/
def runStats (evs : List StatsEvent) : ThrottleStats :=
  evs.foldl statsStep initialStats

/-- How one `_executeCallback` invocation ends. -/
inductive ExecOutcome where
  | success
  | failure429
  | failureOther
deriving DecidableEq, Repr

/-- The stats effect of one `_executeCallback` invocation: `_logRequest`
runs first in every case; a failure additionally runs `_logError`, and a
429 failure re-enqueues the operation (`_enqueue`). -/
def executeCallbackStats (s : ThrottleStats) (o : ExecOutcome) :
    ThrottleStats :=
  match o with
  | .success => statsStep s .logRequest
  | .failure429 => statsStep (statsStep (statsStep s .logRequest) .logFailure) .enqueueReq
  | .failureOther => statsStep (statsStep s .logRequest) .logFailure

/-! Gateway client (src/unnamed/part_002, class `Client`): the heartbeat
machinery of `_onMessage` (HELLO and HEARTBEAT_ACK), `_sendHeartbeat` and
`_onClose`.  `setInterval` is modelled by an armed period plus the time
of the next fire; the event-loop contract (a tick is delivered exactly
when an armed timer reaches its fire time) is the `validTicks`
predicate. -/

/-- The frame kinds relevant to the heartbeat machinery. -/
inductive GwKind where
  | hello (heartbeatInterval : Nat)
  | heartbeatAck
  | dispatch
  | otherOp
deriving DecidableEq, Repr

/-- An inbound gateway packet: its `s` field (absent encoded as `none`)
and its opcode kind. -/
structure GwPacket where
  s : Option Nat
  kind : GwKind
deriving DecidableEq, Repr

/-- An event hitting the connection: an inbound message, a heartbeat
timer fire, or a socket close. -/
inductive GwEvent where
  | msg (p : GwPacket)
  | tick
  | closeEv (code : Nat)
deriving DecidableEq, Repr

/-- The heartbeat-relevant state of `Client`: `_sequence`, the
`setInterval` timer (`interval` = armed period, `nextFire` = when it next
fires), `ws.lastHeartbeatSent`, `ws.lastHeartbeatAck`, `ws.ping`, and the
list of heartbeats sent so far as (send time, `d` payload) pairs. -/
structure GwState where
  seq : Option Nat
  interval : Option Nat
  nextFire : Nat
  lastSent : Nat
  lastAck : Nat
  ping : Int
  sent : List (Nat × Option Nat)
deriving DecidableEq, Repr

/-- The state at construction: `ws = { ping: 0, lastHeartbeatAck: 0,
lastHeartbeatSent: 0 }` and no `_sequence` or timer. -/
def initGw : GwState := ⟨none, none, 0, 0, 0, 0, []⟩

/-- `this._sequence = packet.s ? packet.s : this._sequence` — a truthy
(present and nonzero) `s` replaces the stored sequence. -/
def updSeq (s0 : Option Nat) (ps : Option Nat) : Option Nat :=
  match ps with
  | some m => if m ≠ 0 then some m else s0
  | none => s0

/-- One step of the connection at time `t`.  `msg` is `_onMessage`
(sequence update, then HELLO arms the `setInterval`, HEARTBEAT_ACK
records the ack and sets `ping = lastHeartbeatAck - lastHeartbeatSent`);
`tick` is the timer firing `_sendHeartbeat` (send `{ op: HEARTBEAT, d:
this._sequence }`, record `lastHeartbeatSent`, rearm); `closeEv` is
`_onClose` clearing the interval. -/
def gwStep (st : GwState) (t : Nat) (e : GwEvent) : GwState :=
  match e with
  | .msg p =>
    let st1 := { st with seq := updSeq st.seq p.s }
    match p.kind with
    | .hello n => { st1 with interval := some n, nextFire := t + n }
    | .heartbeatAck =>
      { st1 with lastAck := t, ping := (t : Int) - (st1.lastSent : Int) }
    | .dispatch => st1
    | .otherOp => st1
  | .tick =>
    match st.interval with
    | some n =>
      { st with
        sent := st.sent ++ [(t, st.seq)]
        lastSent := t
        nextFire := t + n }
    | none => st
  | .closeEv _ => { st with interval := none }

/-- Run the connection over a timed event list. -/
def runGw (st : GwState) : List (Nat × GwEvent) → GwState
  | [] => st
  | (t, e) :: rest => runGw (gwStep st t e) rest

/-- The event-loop contract for `setInterval`: a tick occurs exactly when
a timer is armed and its fire time is reached, and no other event
overtakes a pending fire time while the timer is armed. -/
def validTicks (st : GwState) : List (Nat × GwEvent) → Bool
  | [] => true
  | (t, e) :: rest =>
    (match st.interval, e with
     | some _, .tick => t = st.nextFire
     | some _, _ => decide (t < st.nextFire)
     | none, .tick => false
     | none, _ => true) &&
    validTicks (gwStep st t e) rest

/-- An event that neither re-arms the heartbeat timer (HELLO) nor tears
the connection down (close). -/
def benignEvent : GwEvent → Bool
  | .msg ⟨_, .hello _⟩ => false
  | .closeEv _ => false
  | _ => true

/-- Every event of the trace is benign. -/
def benignTrace (evs : List (Nat × GwEvent)) : Bool :=
  evs.all (fun te => benignEvent te.2)

/-- The heartbeats an interval of `n` ms armed at `t0` must produce over a
trace, with their `d` payloads: the `k`-th tick sends at `t0 + k * n` and
carries the sequence number as updated by the messages seen so far. -/
def beatSpec (s0 : Option Nat) (t0 n : Nat) :
    List (Nat × GwEvent) → Nat → List (Nat × Option Nat)
  | [], _ => []
  | (_, .tick) :: rest, k => (t0 + k * n, s0) :: beatSpec s0 t0 n rest (k + 1)
  | (_, .msg p) :: rest, k => beatSpec (updSeq s0 p.s) t0 n rest k
  | (_, .closeEv _) :: rest, k => beatSpec s0 t0 n rest k

/-- The send time of the most recent heartbeat (`ws.lastHeartbeatSent`,
0 before the first heartbeat). -/
def lastBeatTime (sent : List (Nat × Option Nat)) : Nat :=
  match sent.getLast? with
  | some b => b.1
  | none => 0

/-- The heartbeat contract after HELLO with `heartbeat_interval = n` at
time `t0`: over the rest of the trace the heartbeats sent are exactly one
per elapsed interval — the k-th at time `t0 + k * n`, carrying the
last-seen sequence number at that moment — and every heartbeat
acknowledgment sets `ping` to its arrival time minus the send time of the
most recent heartbeat. -/
def HeartbeatProp (n t0 : Nat) (s0 : Option Nat)
    (rest : List (Nat × GwEvent)) : Prop :=
  (runGw (gwStep initGw t0 (.msg ⟨s0, .hello n⟩)) rest).sent
      = beatSpec (updSeq none s0) t0 n rest 1 ∧
  ∀ (pre : List (Nat × GwEvent)) (t : Nat) (p : GwPacket)
      (post : List (Nat × GwEvent)),
    rest = pre ++ (t, GwEvent.msg p) :: post →
    p.kind = GwKind.heartbeatAck →
    (runGw (gwStep initGw t0 (.msg ⟨s0, .hello n⟩))
        (pre ++ [(t, GwEvent.msg p)])).ping =
      (t : Int) -
        (lastBeatTime ((runGw (gwStep initGw t0 (.msg ⟨s0, .hello n⟩))
          pre).sent) : Int)

/-! Theorems. First the association-list lemma kit for `JSMap`. -/

namespace JSMap

@[simp] theorem keys_nil {α : Type} : keys ([] : JSMap α) = [] := rfl

@[simp] theorem keys_cons {α : Type} (k : String) (v : α) (rest : JSMap α) :
    keys ((k, v) :: rest) = k :: keys rest := rfl

theorem hasKey_iff_mem_keys {α : Type} (m : JSMap α) (k : String) :
    hasKey m k = true ↔ k ∈ keys m := by
  induction m with
  | nil => simp [hasKey]
  | cons e rest ih =>
    obtain ⟨k', v⟩ := e
    by_cases h : k' = k
    · simp [hasKey, h]
    · simp [hasKey, h, ih]
      intro h'
      exact absurd h'.symm h

theorem length_mset {α : Type} (m : JSMap α) (k : String) (v : α) :
    (mset m k v).length = if hasKey m k then m.length else m.length + 1 := by
  induction m with
  | nil => simp [mset, hasKey]
  | cons e rest ih =>
    obtain ⟨k', v'⟩ := e
    by_cases h : k' = k
    · simp [mset, hasKey, h]
    · simp only [mset, hasKey, h, if_neg]
      by_cases h2 : hasKey rest k <;> simp [h2, ih]

theorem length_mdel_of_hasKey {α : Type} (m : JSMap α) (k : String)
    (h : hasKey m k = true) : (mdel m k).length + 1 = m.length := by
  induction m with
  | nil => simp [hasKey] at h
  | cons e rest ih =>
    obtain ⟨k', v'⟩ := e
    by_cases hk : k' = k
    · simp [mdel, hk]
    · simp [hasKey, hk] at h
      simp [mdel, hk, ih h]

theorem length_mdel_le {α : Type} (m : JSMap α) (k : String) :
    (mdel m k).length ≤ m.length := by
  induction m with
  | nil => simp [mdel]
  | cons e rest ih =>
    obtain ⟨k', v'⟩ := e
    by_cases hk : k' = k <;> simp [mdel, hk] <;> omega

theorem keys_mdel_subset {α : Type} (m : JSMap α) (k j : String)
    (h : k ∈ keys (mdel m j)) : k ∈ keys m := by
  induction m with
  | nil => simp [mdel] at h
  | cons e rest ih =>
    obtain ⟨k', v'⟩ := e
    by_cases hj : k' = j
    · simp [mdel, hj] at h ⊢
      exact Or.inr h
    · simp [mdel, hj] at h ⊢
      rcases h with h | h
      · exact Or.inl h
      · exact Or.inr (ih h)

theorem mem_keys_mdel_of_ne {α : Type} (m : JSMap α) (k j : String)
    (hne : k ≠ j) (h : k ∈ keys m) : k ∈ keys (mdel m j) := by
  induction m with
  | nil => simp at h
  | cons e rest ih =>
    obtain ⟨k', v'⟩ := e
    by_cases hj : k' = j
    · simp at h
      rcases h with h | h
      · exact absurd (h ▸ hj) (by simpa [h] using hne)
      · simpa [mdel, hj] using h
    · simp at h
      rcases h with h | h
      · simp [mdel, hj, h]
      · simp [mdel, hj, ih h]

theorem keys_mset {α : Type} (m : JSMap α) (k : String) (v : α) (j : String) :
    j ∈ keys (mset m k v) ↔ j ∈ keys m ∨ j = k := by
  induction m with
  | nil => simp [mset, eq_comm]
  | cons e rest ih =>
    obtain ⟨k', v'⟩ := e
    by_cases hk : k' = k
    · simp [mset, hk]
      tauto
    · simp [mset, hk, ih]
      tauto

theorem nodup_keys_mset {α : Type} (m : JSMap α) (k : String) (v : α)
    (h : (keys m).Nodup) : (keys (mset m k v)).Nodup := by
  induction m with
  | nil => simp [mset]
  | cons e rest ih =>
    obtain ⟨k', v'⟩ := e
    simp at h
    by_cases hk : k' = k
    · simp [mset, hk]
      exact ⟨by simpa [hk] using h.1, h.2⟩
    · have hstep : mset ((k', v') :: rest) k v = (k', v') :: mset rest k v := by
        simp [mset, hk]
      rw [hstep, keys_cons, List.nodup_cons]
      refine ⟨?_, ih h.2⟩
      intro hmem
      rcases (keys_mset rest k v k').mp hmem with hmem | hmem
      · exact h.1 hmem
      · exact hk hmem

theorem nodup_keys_mdel {α : Type} (m : JSMap α) (k : String)
    (h : (keys m).Nodup) : (keys (mdel m k)).Nodup := by
  induction m with
  | nil => simp [mdel]
  | cons e rest ih =>
    obtain ⟨k', v'⟩ := e
    simp at h
    by_cases hk : k' = k
    · simpa [mdel, hk] using h.2
    · have hstep : mdel ((k', v') :: rest) k = (k', v') :: mdel rest k := by
        simp [mdel, hk]
      rw [hstep, keys_cons, List.nodup_cons]
      refine ⟨?_, ih h.2⟩
      intro hmem
      exact h.1 (keys_mdel_subset rest k' k hmem)

theorem mget_eq_none_iff {α : Type} (m : JSMap α) (k : String) :
    mget m k = none ↔ k ∉ keys m := by
  induction m with
  | nil => simp [mget]
  | cons e rest ih =>
    obtain ⟨k', v'⟩ := e
    by_cases hk : k' = k
    · simp [mget, hk]
    · simp [mget, hk, ih]
      intro _ h'
      exact hk h'.symm

theorem mget_mdel_self {α : Type} (m : JSMap α) (k : String)
    (h : (keys m).Nodup) : mget (mdel m k) k = none := by
  induction m with
  | nil => simp [mdel, mget]
  | cons e rest ih =>
    obtain ⟨k', v'⟩ := e
    simp at h
    by_cases hk : k' = k
    · rw [mget_eq_none_iff]
      simp [mdel, hk]
      intro hmem
      exact h.1 (by simpa [hk] using hmem)
    · simp [mdel, hk, mget, ih h.2]

theorem mget_mdel_none {α : Type} (m : JSMap α) (k j : String)
    (h : mget m k = none) : mget (mdel m j) k = none := by
  rw [mget_eq_none_iff] at h ⊢
  intro hmem
  exact h (keys_mdel_subset m k j hmem)

theorem mem_mset_self {α : Type} (m : JSMap α) (k : String) (v : α) :
    (k, v) ∈ mset m k v := by
  induction m with
  | nil => simp [mset]
  | cons e rest ih =>
    obtain ⟨k', v'⟩ := e
    by_cases hk : k' = k <;> simp [mset, hk, ih]

theorem mget_mset_self {α : Type} (m : JSMap α) (k : String) (v : α) :
    mget (mset m k v) k = some v := by
  induction m with
  | nil => simp [mset, mget]
  | cons e rest ih =>
    obtain ⟨k', v'⟩ := e
    by_cases hk : k' = k <;> simp [mset, mget, hk, ih]

theorem mget_mset_ne {α : Type} (m : JSMap α) (k j : String) (v : α)
    (hne : j ≠ k) : mget (mset m k v) j = mget m j := by
  induction m with
  | nil =>
    have hkj : ¬(k = j) := fun h => hne h.symm
    simp [mset, mget, hkj]
  | cons e rest ih =>
    obtain ⟨k', v'⟩ := e
    by_cases hk : k' = k
    · subst hk
      have hkj : ¬(k' = j) := fun h => hne h.symm
      simp [mset, mget, hkj]
    · by_cases hj : k' = j
      · simp [mset, mget, hk, hj, hne]
      · simp [mset, mget, hk, hj, ih]

theorem mem_keys_of_mem {α : Type} {m : JSMap α} {p : String × α}
    (h : p ∈ m) : p.1 ∈ keys m := by
  induction m with
  | nil => simp at h
  | cons e rest ih =>
    rcases List.mem_cons.mp h with h' | h'
    · obtain ⟨k', v'⟩ := e
      simp [h']
    · obtain ⟨k', v'⟩ := e
      simp [ih h']

end JSMap

/-! Lemmas about `_getOldestEntry`'s minimum-search loop. -/

theorem minStep_mem (best : Option (String × Nat)) (e : String × Nat) :
    minStep best e = some e ∨ minStep best e = best := by
  match best with
  | none => exact Or.inl rfl
  | some b =>
    by_cases h : e.2 < b.2
    · exact Or.inl (by simp [minStep, h])
    · exact Or.inr (by simp [minStep, h])

theorem minStep_le (best : Option (String × Nat)) (e : String × Nat)
    (r : String × Nat) (h : minStep best e = some r) :
    r.2 ≤ e.2 ∧ (∀ b, best = some b → r.2 ≤ b.2) := by
  match best with
  | none =>
    simp [minStep] at h
    subst h
    exact ⟨le_refl _, by intro b hb; cases hb⟩
  | some b =>
    by_cases hlt : e.2 < b.2
    · simp [minStep, hlt] at h
      subst h
      exact ⟨le_refl _, by intro b' hb'; cases hb'; omega⟩
    · simp [minStep, hlt] at h
      subst h
      exact ⟨by omega, by intro b' hb'; cases hb'; omega⟩

theorem foldl_minStep_spec (l : JSMap Nat) :
    ∀ b : String × Nat,
      ∃ r : String × Nat, l.foldl minStep (some b) = some r ∧
        (r = b ∨ r ∈ l) ∧ r.2 ≤ b.2 ∧ ∀ p ∈ l, r.2 ≤ p.2 := by
  induction l with
  | nil => intro b; exact ⟨b, rfl, Or.inl rfl, le_refl _, by simp⟩
  | cons e rest ih =>
    intro b
    rcases minStep_mem (some b) e with h | h
    · rcases ih e with ⟨r, hr, hmem, hle, hall⟩
      refine ⟨r, by simpa [List.foldl, h] using hr, ?_, ?_, ?_⟩
      · rcases hmem with h' | h'
        · exact Or.inr (by simp [h'])
        · exact Or.inr (by simp [h'])
      · exact le_trans hle ((minStep_le (some b) e e h).2 b rfl)
      · intro p hp
        rcases List.mem_cons.mp hp with h' | h'
        · exact h' ▸ hle
        · exact hall p h'
    · rcases ih b with ⟨r, hr, hmem, hle, hall⟩
      refine ⟨r, by simpa [List.foldl, h] using hr, ?_, hle, ?_⟩
      · rcases hmem with h' | h'
        · exact Or.inl h'
        · exact Or.inr (by simp [h'])
      · intro p hp
        rcases List.mem_cons.mp hp with h' | h'
        · subst h'
          rcases minStep_le (some b) p b h with ⟨h1, _⟩
          exact le_trans hle h1
        · exact hall p h'

theorem minExpEntry_spec (exp : JSMap Nat) (hne : exp ≠ []) :
    ∃ r : String × Nat, minExpEntry exp = some r ∧ r ∈ exp ∧
      ∀ p ∈ exp, r.2 ≤ p.2 := by
  match exp with
  | [] => exact absurd rfl hne
  | e :: rest =>
    have hstep : minStep none e = some e := rfl
    rcases foldl_minStep_spec rest e with ⟨r, hr, hmem, hle, hall⟩
    refine ⟨r, ?_, ?_, ?_⟩
    · simpa [minExpEntry, List.foldl, hstep] using hr
    · rcases hmem with h' | h'
      · simp [h']
      · simp [h']
    · intro p hp
      rcases List.mem_cons.mp hp with h' | h'
      · exact h' ▸ hle
      · exact hall p h'

theorem minExpEntry_nil : minExpEntry ([] : JSMap Nat) = none := rfl

/-! Well-formedness preservation for the cache store. -/

theorem addMessage_msgs (opts : CacheOptions) (st : CacheStore)
    (id : String) (data : Nat) (now : Nat) :
    (addMessage opts st id data now).msgs =
      (evictIfFull opts st).msgs.mset id data := rfl

theorem addMessage_expires_pos (opts : CacheOptions) (st : CacheStore)
    (id : String) (data : Nat) (now : Nat) (hl : opts.lifetime > 0) :
    (addMessage opts st id data now).expires =
      (evictIfFull opts st).expires.mset id (now + opts.lifetime) := by
  simp [addMessage, hl]

theorem addMessage_expires_zero (opts : CacheOptions) (st : CacheStore)
    (id : String) (data : Nat) (now : Nat) (hl : ¬opts.lifetime > 0) :
    (addMessage opts st id data now).expires =
      (evictIfFull opts st).expires := by
  simp [addMessage, hl]

theorem getOldestEntry_evicts (opts : CacheOptions) (st : CacheStore)
    (hWF : WFStore opts st) (hne : st.msgs ≠ []) :
    ∃ oid, getOldestEntry st.msgs st.expires = some oid ∧ oid ≠ "" ∧
      oid ∈ keys st.msgs := by
  obtain ⟨hN1, hN2, hsub, hlz, hids⟩ := hWF
  obtain ⟨e0, rest, hcoll⟩ := List.exists_cons_of_ne_nil hne
  obtain ⟨k0, v0⟩ := e0
  by_cases hexp : st.expires = []
  · refine ⟨k0, ?_, hids k0 (by rw [hcoll]; simp), by rw [hcoll]; simp⟩
    rw [hcoll, hexp]
    simp [getOldestEntry, minExpEntry_nil]
  · rcases minExpEntry_spec st.expires hexp with ⟨r, hr, hrmem, _⟩
    have hkeys : r.1 ∈ keys st.msgs := hsub r.1 (mem_keys_of_mem hrmem)
    have hid : r.1 ≠ "" := hids r.1 hkeys
    refine ⟨r.1, ?_, hid, hkeys⟩
    rw [hcoll]
    simp [getOldestEntry, hr, hid]

theorem removeMessage_WF (opts : CacheOptions) (st : CacheStore)
    (id : String) (hWF : WFStore opts st) :
    WFStore opts (removeMessage st id) := by
  obtain ⟨hN1, hN2, hsub, hlz, hids⟩ := hWF
  refine ⟨nodup_keys_mdel _ _ hN1, nodup_keys_mdel _ _ hN2, ?_, ?_, ?_⟩
  · intro k hk
    have hkexp : k ∈ keys st.expires := keys_mdel_subset _ _ _ hk
    have hkne : k ≠ id := by
      intro h
      subst h
      have hnone := mget_mdel_self st.expires k hN2
      rw [mget_eq_none_iff] at hnone
      exact hnone hk
    exact mem_keys_mdel_of_ne _ _ _ hkne (hsub k hkexp)
  · intro h0
    show st.expires.mdel id = []
    rw [hlz h0]
    rfl
  · intro k hk
    exact hids k (keys_mdel_subset _ _ _ hk)

theorem evictIfFull_WF (opts : CacheOptions) (st : CacheStore)
    (hWF : WFStore opts st) : WFStore opts (evictIfFull opts st) := by
  unfold evictIfFull
  by_cases hfull : st.msgs.length ≥ opts.maxSize
  · simp only [hfull, if_pos]
    cases hold : getOldestEntry st.msgs st.expires with
    | none => exact hWF
    | some oldestId =>
      by_cases hid : oldestId ≠ ""
      · simpa [hid] using removeMessage_WF opts st oldestId hWF
      · simpa [hid] using hWF
  · simpa [hfull] using hWF

theorem evictIfFull_length (opts : CacheOptions) (st : CacheStore)
    (hWF : WFStore opts st) (hmax : 1 ≤ opts.maxSize)
    (hlen : st.msgs.length ≤ opts.maxSize) :
    (evictIfFull opts st).msgs.length < opts.maxSize := by
  by_cases hfull : st.msgs.length ≥ opts.maxSize
  · have hne : st.msgs ≠ [] := by
      intro h
      rw [h] at hfull
      simp at hfull
      omega
    rcases getOldestEntry_evicts opts st hWF hne with ⟨oid, hold, hid, hkeys⟩
    have hhas : hasKey st.msgs oid = true :=
      (hasKey_iff_mem_keys st.msgs oid).mpr hkeys
    have hdel := length_mdel_of_hasKey st.msgs oid hhas
    have hstep : evictIfFull opts st = removeMessage st oid := by
      unfold evictIfFull
      rw [if_pos hfull, hold]
      simp [hid]
    rw [hstep]
    show (st.msgs.mdel oid).length < opts.maxSize
    omega
  · unfold evictIfFull
    rw [if_neg hfull]
    omega

theorem addMessage_length (opts : CacheOptions) (st : CacheStore)
    (id : String) (data : Nat) (now : Nat) (hWF : WFStore opts st)
    (hmax : 1 ≤ opts.maxSize) (hlen : st.msgs.length ≤ opts.maxSize) :
    (addMessage opts st id data now).msgs.length ≤ opts.maxSize := by
  have hev := evictIfFull_length opts st hWF hmax hlen
  rw [addMessage_msgs, length_mset]
  by_cases h : hasKey (evictIfFull opts st).msgs id <;> simp [h] <;> omega

theorem addMessage_WF (opts : CacheOptions) (st : CacheStore) (id : String)
    (data : Nat) (now : Nat) (hWF : WFStore opts st) (hid : id ≠ "") :
    WFStore opts (addMessage opts st id data now) := by
  have hWF1 := evictIfFull_WF opts st hWF
  obtain ⟨hN1, hN2, hsub, hlz, hids⟩ := hWF1
  by_cases hl : opts.lifetime > 0
  · refine ⟨?_, ?_, ?_, ?_, ?_⟩
    · rw [addMessage_msgs]
      exact nodup_keys_mset _ _ _ hN1
    · rw [addMessage_expires_pos opts st id data now hl]
      exact nodup_keys_mset _ _ _ hN2
    · intro k hk
      rw [addMessage_expires_pos opts st id data now hl] at hk
      rw [addMessage_msgs]
      rcases (keys_mset _ _ _ _).mp hk with hk' | hk'
      · exact (keys_mset _ _ _ _).mpr (Or.inl (hsub k hk'))
      · exact (keys_mset _ _ _ _).mpr (Or.inr hk')
    · intro h0
      omega
    · intro k hk
      rw [addMessage_msgs] at hk
      rcases (keys_mset _ _ _ _).mp hk with hk' | hk'
      · exact hids k hk'
      · exact hk' ▸ hid
  · refine ⟨?_, ?_, ?_, ?_, ?_⟩
    · rw [addMessage_msgs]
      exact nodup_keys_mset _ _ _ hN1
    · rw [addMessage_expires_zero opts st id data now hl]
      exact hN2
    · intro k hk
      rw [addMessage_expires_zero opts st id data now hl] at hk
      rw [addMessage_msgs]
      exact (keys_mset _ _ _ _).mpr (Or.inl (hsub k hk))
    · intro h0
      rw [addMessage_expires_zero opts st id data now hl]
      exact hlz h0
    · intro k hk
      rw [addMessage_msgs] at hk
      rcases (keys_mset _ _ _ _).mp hk with hk' | hk'
      · exact hids k hk'
      · exact hk' ▸ hid

theorem sweepFold_WF (opts : CacheOptions) (now : Nat) (l : JSMap Nat) :
    ∀ acc : CacheStore, WFStore opts acc →
      WFStore opts (l.foldl (sweepStep now) acc) := by
  induction l with
  | nil => intro acc h; exact h
  | cons e rest ih =>
    intro acc h
    show WFStore opts (rest.foldl (sweepStep now) (sweepStep now acc e))
    by_cases hx : now > e.2
    · exact ih _ (by simpa [sweepStep, hx] using removeMessage_WF opts acc e.1 h)
    · exact ih _ (by simpa [sweepStep, hx] using h)

theorem sweepFold_length (now : Nat) (l : JSMap Nat) :
    ∀ acc : CacheStore,
      (l.foldl (sweepStep now) acc).msgs.length ≤ acc.msgs.length := by
  induction l with
  | nil => intro acc; exact le_refl _
  | cons e rest ih =>
    intro acc
    show (rest.foldl (sweepStep now) (sweepStep now acc e)).msgs.length ≤ _
    refine le_trans (ih (sweepStep now acc e)) ?_
    by_cases hx : now > e.2
    · simpa [sweepStep, hx, removeMessage] using length_mdel_le acc.msgs e.1
    · simp [sweepStep, hx]

theorem sweep_WF (opts : CacheOptions) (st : CacheStore) (now : Nat)
    (hWF : WFStore opts st) : WFStore opts (sweep opts st now) := by
  unfold sweep
  by_cases hl : opts.lifetime > 0
  · simpa [hl] using sweepFold_WF opts now st.expires st hWF
  · simpa [hl] using hWF

theorem sweep_length (opts : CacheOptions) (st : CacheStore) (now : Nat) :
    (sweep opts st now).msgs.length ≤ st.msgs.length := by
  unfold sweep
  by_cases hl : opts.lifetime > 0
  · simpa [hl] using sweepFold_length now st.expires st
  · simp [hl]

theorem removeMessage_length (st : CacheStore) (id : String) :
    (removeMessage st id).msgs.length ≤ st.msgs.length :=
  length_mdel_le st.msgs id

theorem emptyStore_WF (opts : CacheOptions) : WFStore opts emptyStore := by
  refine ⟨?_, ?_, ?_, ?_, ?_⟩ <;> simp [emptyStore]

theorem runOps_WF (opts : CacheOptions) (hmax : 1 ≤ opts.maxSize) :
    ∀ (ops : List CacheOp) (st : CacheStore), WFStore opts st →
      st.msgs.length ≤ opts.maxSize → goodIds ops = true →
      WFStore opts (runOps opts st ops) ∧
        (runOps opts st ops).msgs.length ≤ opts.maxSize := by
  intro ops
  induction ops with
  | nil => intro st hWF hlen _; exact ⟨hWF, hlen⟩
  | cons op rest ih =>
    intro st hWF hlen hgood
    cases op with
    | add id data now =>
      have hgood' : id ≠ "" ∧ goodIds rest = true := by
        simpa [goodIds, Bool.and_eq_true] using hgood
      exact ih (addMessage opts st id data now)
        (addMessage_WF opts st id data now hWF hgood'.1)
        (addMessage_length opts st id data now hWF hmax hlen) hgood'.2
    | remove id =>
      have hgood' : goodIds rest = true := by simpa [goodIds] using hgood
      exact ih (removeMessage st id) (removeMessage_WF opts st id hWF)
        (le_trans (removeMessage_length st id) hlen) hgood'
    | sweepAt now =>
      have hgood' : goodIds rest = true := by simpa [goodIds] using hgood
      exact ih (sweep opts st now) (sweep_WF opts st now hWF)
        (le_trans (sweep_length opts st now) hlen) hgood'

theorem sweepFold_none (now : Nat) (l : JSMap Nat) :
    ∀ (acc : CacheStore) (id : String), mget acc.msgs id = none →
      mget ((l.foldl (sweepStep now) acc).msgs) id = none := by
  induction l with
  | nil => intro acc id h; exact h
  | cons e rest ih =>
    intro acc id h
    show mget ((rest.foldl (sweepStep now) (sweepStep now acc e)).msgs) id = none
    apply ih
    by_cases hx : now > e.2
    · simpa [sweepStep, hx, removeMessage] using mget_mdel_none acc.msgs id e.1 h
    · simpa [sweepStep, hx] using h

theorem sweepFold_removes (now : Nat) (l : JSMap Nat) :
    ∀ (acc : CacheStore) (id : String) (tid : Nat),
      (keys acc.msgs).Nodup → (id, tid) ∈ l → now > tid →
      mget ((l.foldl (sweepStep now) acc).msgs) id = none := by
  induction l with
  | nil =>
    intro acc id tid _ hmem _
    simp at hmem
  | cons e rest ih =>
    intro acc id tid hN hmem hx
    rcases List.mem_cons.mp hmem with he | he
    · show mget ((rest.foldl (sweepStep now) (sweepStep now acc e)).msgs) id = none
      apply sweepFold_none
      rw [← he]
      have hx' : now > (id, tid).2 := hx
      simp only [sweepStep, hx', if_pos]
      exact mget_mdel_self acc.msgs id hN
    · show mget ((rest.foldl (sweepStep now) (sweepStep now acc e)).msgs) id = none
      refine ih (sweepStep now acc e) id tid ?_ he hx
      by_cases hx2 : now > e.2
      · simpa [sweepStep, hx2, removeMessage] using nodup_keys_mdel acc.msgs e.1 hN
      · simpa [sweepStep, hx2] using hN

theorem evictIfFull_msgs_nodup (opts : CacheOptions) (st : CacheStore)
    (hN : (keys st.msgs).Nodup) :
    (keys (evictIfFull opts st).msgs).Nodup := by
  unfold evictIfFull
  by_cases hfull : st.msgs.length ≥ opts.maxSize
  · rw [if_pos hfull]
    cases hold : getOldestEntry st.msgs st.expires with
    | none => exact hN
    | some oid =>
      by_cases hid : oid ≠ ""
      · simpa [hid] using nodup_keys_mdel st.msgs oid hN
      · simpa [hid] using hN
  · rw [if_neg hfull]
    exact hN

/-! Claim theorems for the cache (C4, C5, C7). -/

/-- C4, amended: for every store whose configured `maxSize` is at least 1
and every sequence of add/remove/sweep operations whose add ids are
non-empty (truthy) strings, the entry count never exceeds `maxSize` at
any observation point — the bound is enforced synchronously by the
eviction stage of `addMessage`, independent of sweeping (the lifetime
option, and hence sweeping behavior, is arbitrary). -/
theorem cache_size_bound (opts : CacheOptions) (ops : List CacheOp)
    (hmax : 1 ≤ opts.maxSize) (hids : goodIds ops = true) :
    (runOps opts emptyStore ops).msgs.length ≤ opts.maxSize :=
  (runOps_WF opts hmax ops emptyStore (emptyStore_WF opts)
    (Nat.zero_le _) hids).2

/-- Witness for C4: a store with `maxSize = 2` and three inserts stays at
count at most 2. -/
theorem cache_size_bound_witness :
    1 ≤ 2 ∧
    goodIds [.add "a" 1 0, .add "b" 2 0, .add "c" 3 0] = true ∧
    (runOps ⟨2, 0⟩ emptyStore
        [.add "a" 1 0, .add "b" 2 0, .add "c" 3 0]).msgs.length ≤ 2 :=
  ⟨by norm_num, by decide,
    cache_size_bound ⟨2, 0⟩ [.add "a" 1 0, .add "b" 2 0, .add "c" 3 0]
      (by norm_num) (by decide)⟩

/-- Counterexample to C4 as stated: the empty string is a valid JS map
key but a falsy `oldestId`, so with `maxSize = 1` the eviction stage is
skipped (`if (oldestId)` fails) and the count reaches 2 > 1. -/
theorem cache_size_bound_cex :
    (runOps ⟨1, 0⟩ emptyStore [.add "" 1 0, .add "b" 2 0]).msgs.length = 2 ∧
    ¬((runOps ⟨1, 0⟩ emptyStore
        [.add "" 1 0, .add "b" 2 0]).msgs.length ≤ 1) := by
  constructor
  · rfl
  · intro h
    have h2 : (runOps ⟨1, 0⟩ emptyStore
        [.add "" 1 0, .add "b" 2 0]).msgs.length = 2 := rfl
    omega

/-- C5, amended: on a well-formed store (in particular: no empty-string
ids, which would trip the falsy fallback), the eviction candidate is the
entry with the minimum recorded expiration time when any expirations
exist, and the first-inserted key otherwise; and the concrete scenario —
`maxSize = 2`, no TTL, insert "a","b","c" — evicts "a" and leaves exactly
`{"b", "c"}`. -/
theorem cache_eviction_policy (opts : CacheOptions) (st : CacheStore)
    (hWF : WFStore opts st) (hm : st.msgs ≠ []) :
    EvictionPolicyProp opts st := by
  obtain ⟨hN1, hN2, hsub, hlz, hids⟩ := hWF
  obtain ⟨e0, rest, hcoll⟩ := List.exists_cons_of_ne_nil hm
  obtain ⟨k0, v0⟩ := e0
  refine ⟨?_, ?_, ?_⟩
  · intro hexp
    rcases minExpEntry_spec st.expires hexp with ⟨r, hr, hrmem, hrall⟩
    have hkeys : r.1 ∈ keys st.msgs := hsub r.1 (mem_keys_of_mem hrmem)
    have hid : r.1 ≠ "" := hids r.1 hkeys
    refine ⟨r, ?_, hrmem, hrall⟩
    rw [hcoll]
    simp [getOldestEntry, hr, hid]
  · intro hexp
    rw [hcoll, hexp]
    simp [getOldestEntry, minExpEntry_nil]
  · rfl

/-- Witness for C5 on a concrete two-entry store whose second entry
carries the earlier expiration. -/
theorem cache_eviction_policy_witness :
    WFStore ⟨2, 10⟩ ⟨[("x", 1), ("y", 2)], [("x", 15), ("y", 10)]⟩ ∧
    (⟨[("x", 1), ("y", 2)], [("x", 15), ("y", 10)]⟩ : CacheStore).msgs ≠ [] ∧
    EvictionPolicyProp ⟨2, 10⟩ ⟨[("x", 1), ("y", 2)], [("x", 15), ("y", 10)]⟩ :=
  ⟨by constructor <;> simp [WFStore], by simp,
    cache_eviction_policy ⟨2, 10⟩ ⟨[("x", 1), ("y", 2)], [("x", 15), ("y", 10)]⟩
      (by constructor <;> simp [WFStore]) (by simp)⟩

/-- Counterexample to C5 as stated: the entry with the earliest recorded
expiration ("" at 10 < 15) is NOT evicted — its falsy id trips the
first-key fallback and "x" (the later expiration) is evicted instead. -/
theorem cache_eviction_policy_cex :
    (runOps ⟨2, 10⟩ emptyStore [.add "x" 1 5, .add "" 2 0]).expires
        = [("x", 15), ("", 10)] ∧
    (10 : Nat) < 15 ∧
    getMessage (runOps ⟨2, 10⟩ emptyStore
        [.add "x" 1 5, .add "" 2 0, .add "c" 3 1]) "x" = none ∧
    getMessage (runOps ⟨2, 10⟩ emptyStore
        [.add "x" 1 5, .add "" 2 0, .add "c" 3 1]) "" = some 2 :=
  ⟨rfl, by norm_num, rfl, rfl⟩

/-- C7, amended: for a store with positive lifetime and duplicate-free
keys, an entry inserted at time `t` is absent from `getMessage` after a
sweep at time `s`, for any query time `q` with `t + lifetime < q ≤ s`
(strictly after expiration: the sweep keeps an entry whose expiration
equals the sweep time, because its test is `now > expireTime`). -/
theorem cache_ttl_absence (opts : CacheOptions) (st : CacheStore)
    (id : String) (v t q s : Nat) (hl : opts.lifetime > 0)
    (hN : (keys st.msgs).Nodup)
    (hq : t + opts.lifetime < q) (hs : q ≤ s) :
    getMessage (sweep opts (addMessage opts st id v t) s) id = none := by
  have hmem : (id, t + opts.lifetime) ∈ (addMessage opts st id v t).expires := by
    rw [addMessage_expires_pos opts st id v t hl]
    exact mem_mset_self _ _ _
  have hN2 : (keys (addMessage opts st id v t).msgs).Nodup := by
    rw [addMessage_msgs]
    exact nodup_keys_mset _ _ _ (evictIfFull_msgs_nodup opts st hN)
  show mget (sweep opts (addMessage opts st id v t) s).msgs id = none
  unfold sweep
  rw [if_pos hl]
  exact sweepFold_removes s (addMessage opts st id v t).expires
    (addMessage opts st id v t) id (t + opts.lifetime) hN2 hmem (by omega)

/-- Witness for C7: lifetime 10, insert at 0, sweep at 12, query at 11. -/
theorem cache_ttl_absence_witness :
    (0 : Nat) < 10 ∧ (0 + 10 : Nat) < 11 ∧ (11 : Nat) ≤ 12 ∧
    getMessage (sweep ⟨5, 10⟩ (addMessage ⟨5, 10⟩ emptyStore "a" 1 0) 12)
      "a" = none :=
  ⟨by norm_num, by norm_num, by norm_num,
    cache_ttl_absence ⟨5, 10⟩ emptyStore "a" 1 0 11 12 (by norm_num)
      (by simp [emptyStore]) (by norm_num) (by norm_num)⟩

/-- Counterexample to C7 as stated: at the exact boundary — lifetime 5,
insert at 0, query and sweep both at time 5 = t + ttl — the sweep's
strict test `now > expireTime` keeps the entry and `getMessage` still
returns it, although the claim requires absence for query time ≥ t + ttl
with a sweep at or after the query. -/
theorem cache_ttl_absence_cex :
    (0 + 5 : Nat) ≤ 5 ∧ (5 : Nat) ≤ 5 ∧
    getMessage (sweep ⟨200, 5⟩ (addMessage ⟨200, 5⟩ emptyStore "a" 1 0) 5)
      "a" = some 1 :=
  ⟨by norm_num, by norm_num, rfl⟩

/-! Claim theorems for the REST manager (C1, C2, C8). -/

/-- C1, amended: requests passing through the axios instance's request
interceptor are the ones subject to the pre-send check.  After a header
update with `retryAfter = 0`, the bucket is marked limited exactly when
`remaining = 0` and the reset lies in the future; and for a limited
bucket with a future reset, `_handleRateLimit` suspends for
`reset - now + restTimeOffset` ms, so the suspended request proceeds
exactly at `resetAt + restTimeOffset`.  (Requests issued through
`make`/`_request` bypass this check: see the counterexample.) -/
theorem rest_presend_suspension :
    (∀ (old : Option RateLimitInfo) (h : RateHeaders) (now : Int),
      ((updateRateLimit old h now 0).limited = true ↔
        (updateRateLimit old h now 0).remaining = 0 ∧
          now < (updateRateLimit old h now 0).reset)) ∧
    (∀ (i : RateLimitInfo) (now offset : Int),
      i.limited = true → now < i.reset →
      now + handleRateLimitDelay (some i) now offset = i.reset + offset) := by
  constructor
  · intro old h now
    unfold updateRateLimit
    have h0 : ¬((0 : Int) > 0) := by norm_num
    simp only [h0, if_false]
    simp [decide_eq_true_iff]
  · intro i now offset hlim hfut
    simp only [handleRateLimitDelay, hlim, if_pos, hfut, if_true]
    ring

/-- Witness for C1 at a concrete limited bucket and headers. -/
theorem rest_presend_suspension_witness :
    ((0 : Int) + handleRateLimitDelay (some ⟨true, 5, 0, 1000⟩) 0 500
        = 1000 + 500) ∧
    ((updateRateLimit none ⟨some 5, some 0, none, some 2⟩ 0 0).limited = true ↔
      (updateRateLimit none ⟨some 5, some 0, none, some 2⟩ 0 0).remaining = 0 ∧
        (0 : Int) < (updateRateLimit none ⟨some 5, some 0, none, some 2⟩ 0 0).reset) :=
  ⟨rest_presend_suspension.2 ⟨true, 5, 0, 1000⟩ 0 500 rfl (by norm_num),
    rest_presend_suspension.1 none ⟨some 5, some 0, none, some 2⟩ 0⟩

/-- Counterexample to C1 as stated: with a recorded bucket that is
limited with its reset 1000 ms in the future, a request issued through
`make`/`_request` is still sent immediately (at time 0, before
`resetAt + restTimeOffset = 1500`), because `_request` calls the bare
`axios(options)` — the interceptors carrying `_handleRateLimit` are
installed only on the `axios.create` instance and `_request` never
consults `_rateLimits` before sending. -/
theorem rest_presend_cex :
    (restRun 3 1000 [.resp 200 none 7 0] 0 0).sends = [0] ∧
    ((0 : Int) < (⟨true, 5, 0, 1000⟩ : RateLimitInfo).reset + 500) ∧
    handleRateLimitDelay (some ⟨true, 5, 0, 1000⟩) 0 500 = 1500 :=
  ⟨rfl, by norm_num, rfl⟩

/-- C2, amended: a 429 response makes the request wait
`parseInt(retry-after) * 1000` ms (2000 ms here) and retry — but the
retry is issued with the SAME `retryCount`, so 429 retries are not
counted against the `retryLimit` budget.  A single 429 with
`retry-after: 2` followed by success resolves the original call with the
data after exactly 2000 ms via exactly one retry, for EVERY retryLimit
(including 0). -/
theorem rest_429_retry (rl rad d d' b b' : Nat) (start : Int) :
    restRun rl rad [.resp 429 (some 2) d b, .resp 200 none d' b'] 0 start =
      ⟨some (.ok d'), start + 2000, [start, start + 2000], 1⟩ ∧
    restRun rl rad [.resp 429 none d b, .resp 200 none d' b'] 0 start =
      ⟨some (.ok d'), start + rad, [start, start + rad], 1⟩ := by
  constructor <;> simp [restRun]

/-- Counterexample to C2 as stated: with `retryLimit = 1`, three
consecutive 429 responses are all retried and the call still resolves —
3 429-triggered retries happened, exceeding the budget of 1, because
`_handleResponse` passes `retryCount` unchanged on the 429 path. -/
theorem rest_429_budget_cex :
    (restRun 1 1000 [.resp 429 (some 1) 0 0, .resp 429 (some 1) 0 0,
        .resp 429 (some 1) 0 0, .resp 200 none 7 0] 0 0).result
      = some (.ok 7) ∧
    (restRun 1 1000 [.resp 429 (some 1) 0 0, .resp 429 (some 1) 0 0,
        .resp 429 (some 1) 0 0, .resp 200 none 7 0] 0 0).retried429 = 3 ∧
    ¬((3 : Nat) ≤ 1) :=
  ⟨rfl, rfl, by norm_num⟩

/-- C8, amended: as long as no attempt fails during request setup (the
`else` branch of `_request`'s catch, which re-throws the raw error), a
call through `make`/`_request` never rejects with a raw lower-level
error: it resolves with the data or rejects with one of the catalogued
kinds (UNAUTHORIZED, FORBIDDEN, NOT_FOUND, SERVER_ERROR,
REQUEST_TIMEOUT, UNKNOWN_ERROR). -/
theorem rest_error_taxonomy (rl rad : Nat) (script : List AxiosOutcome) :
    ∀ (rc : Nat) (now : Int),
      (∀ o ∈ script, isSetupFailure o = false) →
      ∀ e, (restRun rl rad script rc now).result ≠ some (.error (.raw e)) := by
  induction script with
  | nil =>
    intro rc now _ e
    simp [restRun]
  | cons o rest ih =>
    intro rc now hall e
    have hrest : ∀ o' ∈ rest, isSetupFailure o' = false :=
      fun o' ho' => hall o' (List.mem_cons_of_mem _ ho')
    cases o with
    | setupFailure e0 =>
      have hh := hall _ (List.mem_cons_self _ _)
      simp [isSetupFailure] at hh
    | resp status rAfter data backoff =>
      simp only [restRun]
      split_ifs with h1 h2 h3 h4 h5 h6 h7
      · simp
      · simpa using ih rc _ hrest e
      · simp
      · simp
      · simp
      · simpa using ih (rc + 1) _ hrest e
      · simp
      · simp
    | noResponse backoff =>
      simp only [restRun]
      split_ifs with h1
      · simpa using ih (rc + 1) _ hrest e
      · simp

/-- Witness for C8 on a setup-failure-free script mixing a 429, a
timeout, a 500 and a success. -/
theorem rest_error_taxonomy_witness :
    (restRun 3 1000 [.resp 429 (some 1) 0 0, .noResponse 1500,
        .resp 500 none 0 1200, .resp 200 none 9 0] 0 0).result
      ≠ some (.error (.raw 0)) :=
  rest_error_taxonomy 3 1000
    [.resp 429 (some 1) 0 0, .noResponse 1500, .resp 500 none 0 1200,
      .resp 200 none 9 0] 0 0 (by decide) 0

/-- Counterexample to C8 as stated: an error raised while setting up the
request (axios's `else` branch: no response and no request object) is
re-thrown as-is — the caller sees the raw lower-level exception, not a
catalogued kind. -/
theorem rest_error_taxonomy_cex :
    (restRun 3 1000 [.setupFailure 7] 0 0).result
      = some (.error (.raw 7)) := rfl

/-! Claim theorems for the throttling manager (C3, C6, C10). -/

/-- C6, confirmed: under the spec's configuration domain (positive
`maxRequestsPerMinute × bufferSize`), `throttle` enqueues an operation
exactly when its normalized route is flagged rate-limited by a prior 429
or the recorded timestamps within the last 60 s have reached
`maxRequestsPerMinute × bufferSize`; an admitted operation executes at
once and its start time is appended to the pruned sliding window. -/
theorem throttle_admission (cfg : ThrottleConfig) (st : ThrottleState)
    (route : String) (now : Int)
    (hpos : 0 < (cfg.maxRequestsPerMinute : ℚ) * cfg.bufferSize) :
    AdmissionProp cfg st route now := by
  have hnot0 : ¬((cfg.maxRequestsPerMinute : ℚ) * cfg.bufferSize ≤ 0) :=
    not_le.mpr hpos
  unfold AdmissionProp
  by_cases hrl : st.rateLimit.mget (normalizeRoute route) = some true
  · constructor
    · simp [throttleAdmit, hrl]
    · intro h
      simp [throttleAdmit, hrl] at h
  · cases hlog : st.requestLog.mget (normalizeRoute route) with
    | none =>
      constructor
      · simp [throttleAdmit, wouldExceedLimit, hrl, hlog, hnot0]
      · intro _
        simp [throttleAdmit, wouldExceedLimit, hrl, hlog,
          logRequestTimestamp, mget_mset_self]
    | some l =>
      by_cases hex : (cfg.maxRequestsPerMinute : ℚ) * cfg.bufferSize ≤
          (((l.filter (fun time => now - 60000 < time)).length : ℚ))
      · constructor
        · simp [throttleAdmit, wouldExceedLimit, hrl, hlog, hex]
        · intro h
          simp [throttleAdmit, wouldExceedLimit, hrl, hlog, hex] at h
      · constructor
        · simp [throttleAdmit, wouldExceedLimit, hrl, hlog, hex]
        · intro _
          simp [throttleAdmit, wouldExceedLimit, hrl, hlog, hex,
            logRequestTimestamp, mget_mset_self]

/-- Witness for C6: `maxRequestsPerMinute = 2`, `bufferSize = 9/10`, a
route already carrying two fresh timestamps. -/
theorem throttle_admission_witness :
    AdmissionProp ⟨2, 9/10⟩ ⟨[("GET /x", [0, 1])], []⟩ "GET /x" 2 :=
  throttle_admission ⟨2, 9/10⟩ ⟨[("GET /x", [0, 1])], []⟩ "GET /x" 2
    (by norm_num)

theorem onlyQueueDrain_cons (e : QueueEvent) (rest : List QueueEvent) :
    onlyQueueDrain (e :: rest)
      = ((match e with
          | QueueEvent.submitQueued _ => true
          | QueueEvent.drainOne => true
          | _ => false) && onlyQueueDrain rest) := rfl

/-- The drain/enqueue invariant of one route's queue: executed operations
followed by the still-queued ones reproduce the submission order. -/
theorem runQueue_inv (evs : List QueueEvent) :
    ∀ st : QueueState, onlyQueueDrain evs = true →
      (runQueue st evs).execLog ++ (runQueue st evs).queue
        = st.execLog ++ (st.queue ++ submittedOps evs) := by
  induction evs with
  | nil =>
    intro st _
    simp [runQueue, submittedOps]
  | cons e rest ih =>
    intro st hq
    rw [onlyQueueDrain_cons, Bool.and_eq_true] at hq
    cases e with
    | submitQueued o =>
      have hstep : runQueue st (.submitQueued o :: rest)
          = runQueue { st with queue := st.queue ++ [o] } rest := rfl
      rw [hstep, ih _ hq.2]
      simp [submittedOps]
    | drainOne =>
      cases hqu : st.queue with
      | nil =>
        have hstep : runQueue st (.drainOne :: rest)
            = runQueue st rest := by
          show runQueue (queueStep st .drainOne) rest = runQueue st rest
          rw [show queueStep st .drainOne = st by simp [queueStep, hqu]]
        rw [hstep, ih _ hq.2]
        simp [submittedOps, hqu]
      | cons h t =>
        have hstep : runQueue st (.drainOne :: rest)
            = runQueue ⟨t, st.execLog ++ [h]⟩ rest := by
          show runQueue (queueStep st .drainOne) rest = _
          rw [show queueStep st .drainOne = ⟨t, st.execLog ++ [h]⟩ by
            simp [queueStep, hqu]]
        rw [hstep, ih _ hq.2]
        simp [submittedOps, hqu]
    | submitImmediate o => simp at hq
    | fail429 o => simp at hq

/-- C3, amended: per-route FIFO order holds for queued operations — the
drain executes them in submission order — but an operation whose
execution fails with a 429 is re-queued at the BACK of its route's queue
(`_enqueue` uses `Array.push`), so waiters enqueued during its execution
run before its retry: in the scenario, operation 1 fails while operation
2 waits, and the execution order is 1, 2, 1. -/
theorem queue_fifo_order (evs : List QueueEvent)
    (hq : onlyQueueDrain evs = true) : FifoProp evs := by
  have hinv := runQueue_inv evs ⟨[], []⟩ hq
  simp at hinv
  refine ⟨hinv, ?_, rfl⟩
  rw [← hinv]
  exact (List.take_left _ _).symm

/-- Witness for C3: two queued operations drained in order. -/
theorem queue_fifo_order_witness :
    FifoProp [.submitQueued 3, .submitQueued 4, .drainOne, .drainOne] :=
  queue_fifo_order [.submitQueued 3, .submitQueued 4, .drainOne, .drainOne]
    (by rfl)

/-- Counterexample to C3 as stated: re-queuing a 429-failed operation
appends it behind the already-waiting operation 2 (`push`, not
`unshift`), and the drain then runs operation 2 before the retry of
operation 1 — the failed operation does not retain its position. -/
theorem queue_requeue_cex :
    (queueStep ⟨[2], [1]⟩ (.fail429 1)).queue = [2, 1] ∧
    ([2, 1] : List Nat) ≠ [1, 2] ∧
    (runQueue ⟨[], []⟩ [.submitImmediate 1, .submitQueued 2, .fail429 1,
        .drainOne, .drainOne]).execLog = [1, 2, 1] :=
  ⟨rfl, by decide, rfl⟩

/-- Auxiliary invariant: every stats mutation preserves
`totalRequests = succeededRequests`. -/
theorem runStats_aux (evs : List StatsEvent) :
    ∀ s : ThrottleStats, s.totalRequests = s.succeededRequests →
      (evs.foldl statsStep s).totalRequests
        = (evs.foldl statsStep s).succeededRequests := by
  induction evs with
  | nil => intro s h; exact h
  | cons e rest ih =>
    intro s h
    show (rest.foldl statsStep (statsStep s e)).totalRequests = _
    apply ih
    cases e <;> simp [statsStep, initialStats, h]

/-- C10, confirmed: after any history of stats mutations the invariant
`totalRequests = succeededRequests` holds, because `_logRequest`
increments both counters before the callback result is known; a failing
`_executeCallback` still bumps `succeededRequests` (and `totalRequests`)
by 1 and additionally bumps `failedRequests`, so `succeededRequests`
does not measure actual successes. -/
theorem throttle_stats_invariant :
    (∀ evs : List StatsEvent,
      (runStats evs).totalRequests = (runStats evs).succeededRequests) ∧
    (∀ (s : ThrottleStats) (o : ExecOutcome),
      (executeCallbackStats s o).succeededRequests
          = s.succeededRequests + 1 ∧
      (executeCallbackStats s o).totalRequests = s.totalRequests + 1) ∧
    (∀ s : ThrottleStats,
      (executeCallbackStats s .failure429).failedRequests
          = s.failedRequests + 1 ∧
      (executeCallbackStats s .failureOther).failedRequests
          = s.failedRequests + 1) := by
  refine ⟨?_, ?_, ?_⟩
  · intro evs
    exact runStats_aux evs initialStats rfl
  · intro s o
    cases o <;> simp [executeCallbackStats, statsStep]
  · intro s
    simp [executeCallbackStats, statsStep]

/-! Claim theorems for the gateway heartbeat (C9). -/

theorem benignTrace_cons (te : Nat × GwEvent) (rest : List (Nat × GwEvent)) :
    benignTrace (te :: rest) = (benignEvent te.2 && benignTrace rest) := rfl

theorem validTicks_cons (st : GwState) (t : Nat) (e : GwEvent)
    (rest : List (Nat × GwEvent)) :
    validTicks st ((t, e) :: rest)
      = ((match st.interval, e with
          | some _, GwEvent.tick => decide (t = st.nextFire)
          | some _, _ => decide (t < st.nextFire)
          | none, GwEvent.tick => false
          | none, _ => true) && validTicks (gwStep st t e) rest) := rfl

theorem runGw_concat (l1 l2 : List (Nat × GwEvent)) :
    ∀ st : GwState, runGw st (l1 ++ l2) = runGw (runGw st l1) l2 := by
  induction l1 with
  | nil => intro st; rfl
  | cons te rest ih =>
    intro st
    obtain ⟨t, e⟩ := te
    show runGw (gwStep st t e) (rest ++ l2) = _
    exact ih (gwStep st t e)

theorem runGw_lastSent (evs : List (Nat × GwEvent)) :
    ∀ st : GwState, st.lastSent = lastBeatTime st.sent →
      (runGw st evs).lastSent = lastBeatTime (runGw st evs).sent := by
  induction evs with
  | nil => intro st h; exact h
  | cons te rest ih =>
    intro st h
    obtain ⟨t, e⟩ := te
    show (runGw (gwStep st t e) rest).lastSent = _
    apply ih
    cases e with
    | msg p =>
      cases hk : p.kind <;> simp [gwStep, hk, h]
    | tick =>
      cases hi : st.interval with
      | none => simpa [gwStep, hi] using h
      | some n => simp [gwStep, hi, lastBeatTime]
    | closeEv code => simpa [gwStep] using h

theorem runGw_beats (evs : List (Nat × GwEvent)) :
    ∀ (st : GwState) (n t0 : Nat),
      st.interval = some n →
      st.nextFire = t0 + (st.sent.length + 1) * n →
      benignTrace evs = true → validTicks st evs = true →
      (runGw st evs).sent
        = st.sent ++ beatSpec st.seq t0 n evs (st.sent.length + 1) := by
  induction evs with
  | nil =>
    intro st n t0 _ _ _ _
    simp [runGw, beatSpec]
  | cons te rest ih =>
    intro st n t0 hi hnf hb hv
    obtain ⟨t, e⟩ := te
    rw [benignTrace_cons, Bool.and_eq_true] at hb
    rw [validTicks_cons, Bool.and_eq_true] at hv
    cases e with
    | tick =>
      have ht : t = st.nextFire := by
        have := hv.1
        rw [hi] at this
        simpa using this
      have hstep : gwStep st t .tick
          = { st with
              sent := st.sent ++ [(t, st.seq)],
              lastSent := t,
              nextFire := t + n } := by
        simp [gwStep, hi]
      have ih' := ih (gwStep st t .tick) n t0 (by rw [hstep]; exact hi)
        (by
          rw [hstep]
          show t + n = t0 + ((st.sent ++ [(t, st.seq)]).length + 1) * n
          rw [ht, hnf]
          simp [List.length_append]
          ring)
        hb.2 hv.2
      show (runGw (gwStep st t .tick) rest).sent = _
      rw [ih', hstep]
      show (st.sent ++ [(t, st.seq)]) ++ _ = st.sent ++ _
      rw [show beatSpec st.seq t0 n ((t, GwEvent.tick) :: rest)
            (st.sent.length + 1)
          = (t0 + (st.sent.length + 1) * n, st.seq)
              :: beatSpec st.seq t0 n rest (st.sent.length + 1 + 1) from rfl]
      rw [List.append_assoc]
      congr 1
      simp [List.length_append]
      rw [ht, hnf]
    | msg p =>
      cases hk : p.kind with
      | hello m =>
        exfalso
        obtain ⟨ps, pk⟩ := p
        have hk' : pk = GwKind.hello m := hk
        subst hk'
        have hcontra := hb.1
        simp [benignEvent] at hcontra
      | heartbeatAck =>
        have hstep : gwStep st t (.msg p)
            = { st with
                seq := updSeq st.seq p.s,
                lastAck := t,
                ping := (t : Int) - (st.lastSent : Int) } := by
          simp [gwStep, hk]
        have ih' := ih (gwStep st t (.msg p)) n t0 (by rw [hstep]; exact hi)
          (by rw [hstep]; exact hnf) hb.2 hv.2
        show (runGw (gwStep st t (.msg p)) rest).sent = _
        rw [ih', hstep]
        rw [show beatSpec st.seq t0 n ((t, GwEvent.msg p) :: rest)
              (st.sent.length + 1)
            = beatSpec (updSeq st.seq p.s) t0 n rest (st.sent.length + 1)
            from rfl]
      | dispatch =>
        have hstep : gwStep st t (.msg p)
            = { st with seq := updSeq st.seq p.s } := by
          simp [gwStep, hk]
        have ih' := ih (gwStep st t (.msg p)) n t0 (by rw [hstep]; exact hi)
          (by rw [hstep]; exact hnf) hb.2 hv.2
        show (runGw (gwStep st t (.msg p)) rest).sent = _
        rw [ih', hstep]
        rw [show beatSpec st.seq t0 n ((t, GwEvent.msg p) :: rest)
              (st.sent.length + 1)
            = beatSpec (updSeq st.seq p.s) t0 n rest (st.sent.length + 1)
            from rfl]
      | otherOp =>
        have hstep : gwStep st t (.msg p)
            = { st with seq := updSeq st.seq p.s } := by
          simp [gwStep, hk]
        have ih' := ih (gwStep st t (.msg p)) n t0 (by rw [hstep]; exact hi)
          (by rw [hstep]; exact hnf) hb.2 hv.2
        show (runGw (gwStep st t (.msg p)) rest).sent = _
        rw [ih', hstep]
        rw [show beatSpec st.seq t0 n ((t, GwEvent.msg p) :: rest)
              (st.sent.length + 1)
            = beatSpec (updSeq st.seq p.s) t0 n rest (st.sent.length + 1)
            from rfl]
    | closeEv code =>
      have := hb.1
      simp [benignEvent] at this

/-- C9, confirmed: after HELLO with `heartbeat_interval = n` arrives at
time `t0`, over any continuation that keeps the connection open (no
close, no second HELLO) and delivers timer fires per the `setInterval`
contract, exactly one heartbeat is sent at each `t0 + k * n`, carrying
the last-seen sequence number at that moment, and every heartbeat
acknowledgment sets `ping` to its arrival time minus the send time of
the most recent heartbeat. -/
theorem gateway_heartbeat (n t0 : Nat) (s0 : Option Nat)
    (rest : List (Nat × GwEvent)) (hb : benignTrace rest = true)
    (hv : validTicks (gwStep initGw t0 (.msg ⟨s0, .hello n⟩)) rest = true) :
    HeartbeatProp n t0 s0 rest := by
  have hI : (gwStep initGw t0 (.msg ⟨s0, .hello n⟩)).interval = some n := rfl
  have hNF : (gwStep initGw t0 (.msg ⟨s0, .hello n⟩)).nextFire
      = t0 + (((gwStep initGw t0 (.msg ⟨s0, .hello n⟩)).sent).length + 1) * n := by
    show t0 + n = t0 + (0 + 1) * n
    ring
  constructor
  · have hmain := runGw_beats rest (gwStep initGw t0 (.msg ⟨s0, .hello n⟩))
      n t0 hI hNF hb hv
    simpa using hmain
  · intro pre t p post _ hack
    rw [runGw_concat]
    show (gwStep (runGw (gwStep initGw t0 (.msg ⟨s0, .hello n⟩)) pre)
        t (.msg p)).ping = _
    have hls := runGw_lastSent pre (gwStep initGw t0 (.msg ⟨s0, .hello n⟩)) rfl
    have hstep : ∀ q : GwState, q.lastSent = lastBeatTime q.sent →
        (gwStep q t (.msg p)).ping
          = (t : Int) - (lastBeatTime q.sent : Int) := by
      intro q hq
      obtain ⟨ps, pk⟩ := p
      have hk' : pk = GwKind.heartbeatAck := hack
      subst hk'
      simp [gwStep, hq]
    exact hstep _ hls

/-- Witness for C9: interval 10 armed at time 0; a dispatch carrying
sequence 3, ticks at 10 and 20, and an ack at 12. -/
theorem gateway_heartbeat_witness :
    HeartbeatProp 10 0 none [(5, .msg ⟨some 3, .dispatch⟩), (10, .tick),
      (12, .msg ⟨none, .heartbeatAck⟩), (20, .tick)] :=
  gateway_heartbeat 10 0 none
    [(5, .msg ⟨some 3, .dispatch⟩), (10, .tick),
      (12, .msg ⟨none, .heartbeatAck⟩), (20, .tick)] (by rfl) (by rfl)

end Ghost
